import Mathlib

/-!
Verification development for the LLVM-obfuscator repository's analysis tools
(`src/tools/decompile_analysis.py` and `src/tools/ir_to_c.py`).

The Python code is shallowly embedded over `List Char`: every regular
expression that the source applies is modelled as an explicit character-level
scan with the exact backtracking behaviour of CPython's `re` engine on that
particular pattern (leftmost match, greedy/lazy quantifiers, alternation in
written order, non-overlapping `findall`/`finditer`/`sub` continuation at each
match end).  Strings in the embedding use `\x7b` and `\x7d` escapes for the
brace characters.
-/

namespace Spec2Proof

/-- Python/`re` whitespace for ASCII text: the class `[ \t\n\r\f\v]`.
Used by `str.strip()` and by `\s` in every pattern of the two tools
(the inputs of interest are ASCII). -/
def pySpace (c : Char) : Bool :=
  c = ' ' || c = '\t' || c = '\n' || c = '\r' || c = '\x0b' || c = '\x0c'

/-- `\d` of the patterns: ASCII decimal digit. -/
def pyDigit (c : Char) : Bool :=
  '0' ≤ c && c ≤ '9'

/-- `\w` of the patterns: ASCII word character. -/
def pyWord (c : Char) : Bool :=
  ('a' ≤ c && c ≤ 'z') || ('A' ≤ c && c ≤ 'Z') || pyDigit c || c = '_'

/-- Python `str.strip()`: remove whitespace from both ends. -/
def pyStrip (l : List Char) : List Char :=
  ((l.dropWhile pySpace).reverse.dropWhile pySpace).reverse

/-- Python `needle in haystack` substring test. -/
def pyIn (pat : List Char) : List Char → Bool
  | [] => pat.isEmpty
  | c :: tl => pat.isPrefixOf (c :: tl) || pyIn pat tl

/-- Python `s.startswith(p)`. -/
def pyStarts (pat l : List Char) : Bool :=
  pat.isPrefixOf l

/-! ## §4.1 brace-depth scan (both tools)

`decompile_analysis.LLVMIRParser._extract_functions` lines 92-101 and
`ir_to_c.IRToCConverter._extract_functions` lines 64-74 run the same loop:

    while end_pos < len(content) and brace_count > 0:
        if content[end_pos] == '{': brace_count += 1
        elif content[end_pos] == '}': brace_count -= 1
        end_pos += 1

`braceScan t d` returns `(consumed, finalDepth)` for the loop started on the
suffix `t` of the input with depth `d`. -/
def braceStep (c : Char) (d : Nat) : Nat :=
  if c = '\x7b' then d + 1 else if c = '\x7d' then d - 1 else d

def braceScan : List Char → Nat → Nat × Nat
  | [], d => (0, d)
  | c :: tl, d =>
    if d = 0 then (0, 0)
    else ((braceScan tl (braceStep c d)).1 + 1, (braceScan tl (braceStep c d)).2)

/-! ## §4.3 marker detection: BOGUS_CODE
(`decompile_analysis.LLVMIRParser._detect_obfuscation_patterns` lines 150-152)

    if re.search(r'0xDEADBEEF|0xCAFEBABE', self.content):
        self.obfuscation_patterns['bogus_code'] = len(re.findall(r'0xDEADBEEF|0xCAFEBABE', self.content))

and `get_metrics` reads `self.obfuscation_patterns.get('bogus_code', 0)`. -/

def deadbeefL : List Char := "0xDEADBEEF".data

def cafebabeL : List Char := "0xCAFEBABE".data

/-- `len(re.findall(r'0xDEADBEEF|0xCAFEBABE', text))`: scan left to right,
trying the alternatives in written order at each position; on a match skip
the matched ten characters, else advance one character. -/
def bogusScan : List Char → Nat
  | [] => 0
  | c :: tl =>
    if deadbeefL.isPrefixOf (c :: tl) then bogusScan (tl.drop 9) + 1
    else if cafebabeL.isPrefixOf (c :: tl) then bogusScan (tl.drop 9) + 1
    else bogusScan tl
  termination_by l => l.length
  decreasing_by
    all_goals simp only [List.length_cons, List.length_drop]
    all_goals omega

/-- The `bogus_code` entry of the metrics: the guarded `re.search`/`findall`
pair followed by `.get('bogus_code', 0)`.  When the search finds nothing the
key is never written and the default `0` is returned. -/
def bogusCodeBlocks (text : List Char) : Nat :=
  if 0 < bogusScan text then bogusScan text else 0

/-- Number of occurrences of `pat` in `l`: the count of suffix positions at
which `pat` starts.  This is how "the text contains the sentinel exactly `n`
times" is formalised. -/
def occCount (pat : List Char) : List Char → Nat
  | [] => 0
  | c :: tl => (if pat.isPrefixOf (c :: tl) then 1 else 0) + occCount pat tl

/-! ## String-literal decoding
(`decompile_analysis.LLVMIRParser._decode_string` lines 72-79, and the same
`codecs.decode(s, 'unicode_escape')` call with fallback in
`ir_to_c.IRToCConverter._extract_strings` lines 34-40.)

CPython's `codecs.decode(s, 'unicode_escape')` on a `str` argument first
encodes the string with UTF-8 and then runs the byte-level `unicode_escape`
decoder, in which every non-escape byte denotes the code point of its own
value (Latin-1).  `\N{...}` name lookup is not modelled and is mapped to
failure; no theorem below touches a `\N` input. -/

/-- UTF-8 encoding of one character. -/
def utf8Char (c : Char) : List Nat :=
  let n := c.toNat
  if n < 0x80 then [n]
  else if n < 0x800 then [0xC0 + n / 0x40, 0x80 + n % 0x40]
  else if n < 0x10000 then [0xE0 + n / 0x1000, 0x80 + (n / 0x40) % 0x40, 0x80 + n % 0x40]
  else [0xF0 + n / 0x40000, 0x80 + (n / 0x1000) % 0x40, 0x80 + (n / 0x40) % 0x40, 0x80 + n % 0x40]

def utf8Bytes : List Char → List Nat
  | [] => []
  | c :: tl => utf8Char c ++ utf8Bytes tl

def hexDigitVal (b : Nat) : Option Nat :=
  if 0x30 ≤ b ∧ b ≤ 0x39 then some (b - 0x30)
  else if 0x61 ≤ b ∧ b ≤ 0x66 then some (b - 0x57)
  else if 0x41 ≤ b ∧ b ≤ 0x46 then some (b - 0x37)
  else none

def hexB (b : Nat) : Bool :=
  decide ((0x30 ≤ b ∧ b ≤ 0x39) ∨ (0x61 ≤ b ∧ b ≤ 0x66) ∨ (0x41 ≤ b ∧ b ≤ 0x46))

def octB (b : Nat) : Bool :=
  decide (0x30 ≤ b ∧ b ≤ 0x37)

def hexFold (l : List Nat) : Nat :=
  l.foldl (fun a b => a * 16 + ((hexDigitVal b).getD 0)) 0

/-- The byte-level `unicode_escape` decoder: `none` models a raised
`UnicodeDecodeError`/`ValueError`.  The second argument is a skip counter
(bytes already consumed by the escape sequence currently being stepped over);
it is kept structural so that the kernel can evaluate the function. -/
def uEscA : List Nat → Nat → Option (List Char)
  | [], _ => some []
  | _ :: bs, skip + 1 => uEscA bs skip
  | b :: bs, 0 =>
    if b ≠ 0x5C then (uEscA bs 0).map (fun r => Char.ofNat b :: r)
    else
      match bs with
      | [] => none
      | e :: rest =>
        if e = 0x0A then uEscA bs 1
        else if e = 0x5C then (uEscA bs 1).map (fun r => '\\' :: r)
        else if e = 0x27 then (uEscA bs 1).map (fun r => '\'' :: r)
        else if e = 0x22 then (uEscA bs 1).map (fun r => '"' :: r)
        else if e = 0x61 then (uEscA bs 1).map (fun r => '\x07' :: r)
        else if e = 0x62 then (uEscA bs 1).map (fun r => '\x08' :: r)
        else if e = 0x66 then (uEscA bs 1).map (fun r => '\x0c' :: r)
        else if e = 0x6E then (uEscA bs 1).map (fun r => '\n' :: r)
        else if e = 0x72 then (uEscA bs 1).map (fun r => '\x0d' :: r)
        else if e = 0x74 then (uEscA bs 1).map (fun r => '\t' :: r)
        else if e = 0x76 then (uEscA bs 1).map (fun r => '\x0b' :: r)
        else if octB e then
          (uEscA bs (1 + ((rest.takeWhile octB).take 2).length)).map
            (fun r =>
              Char.ofNat (((rest.takeWhile octB).take 2).foldl
                (fun a x => a * 8 + (x - 0x30)) (e - 0x30)) :: r)
        else if e = 0x78 then
          if 2 ≤ rest.length ∧ (rest.take 2).all hexB then
            (uEscA bs 3).map (fun r => Char.ofNat (hexFold (rest.take 2)) :: r)
          else none
        else if e = 0x75 then
          if 4 ≤ rest.length ∧ (rest.take 4).all hexB then
            (uEscA bs 5).map (fun r => Char.ofNat (hexFold (rest.take 4)) :: r)
          else none
        else if e = 0x55 then
          if 8 ≤ rest.length ∧ (rest.take 8).all hexB ∧ hexFold (rest.take 8) ≤ 0x10FFFF then
            (uEscA bs 9).map (fun r => Char.ofNat (hexFold (rest.take 8)) :: r)
          else none
        else if e = 0x4E then none
        else (uEscA bs 1).map (fun r => '\\' :: Char.ofNat e :: r)

def uEsc (bs : List Nat) : Option (List Char) :=
  uEscA bs 0

/-- `_decode_string`: decode with fallback to the raw payload on any error. -/
def decodeString (s : List Char) : List Char :=
  match uEsc (utf8Bytes s) with
  | some r => r
  | none => s

/-- `findall(r'c"([^"]*)"', content)`: the payloads of the `c"..."` string
constants, in text order (`LLVMIRParser._extract_strings` lines 65-70). -/
def extractCStringsA : List Char → Nat → List (List Char)
  | [], _ => []
  | _ :: tl, skip + 1 => extractCStringsA tl skip
  | c :: tl, 0 =>
    if c = 'c' ∧ tl.head? = some '"' then
      if (tl.tail.takeWhile (fun x => x ≠ '"')).length < tl.tail.length then
        tl.tail.takeWhile (fun x => x ≠ '"') ::
          extractCStringsA tl ((tl.tail.takeWhile (fun x => x ≠ '"')).length + 2)
      else extractCStringsA tl 0
    else extractCStringsA tl 0

def extractCStrings (content : List Char) : List (List Char) :=
  extractCStringsA content 0

/-- `self.strings = [self._decode_string(m) for m in matches if m]`. -/
def parserStrings (content : List Char) : List (List Char) :=
  ((extractCStrings content).filter (fun p => !p.isEmpty)).map decodeString

/-! ## §4.4 instruction lowering
(`decompile_analysis.CDecompiler._convert_instruction` lines 231-266 and
`ir_to_c.IRToCConverter._convert_instruction` lines 166-224, with the helpers
`_simplify_value` and `_simplify_args` of `ir_to_c.py`.) -/

/-- `re.sub(r'%\d+\s*=\s*', '', instr)` — strip assigned-temporary prefixes.
The skip counter steps over the remainder of a removed match. -/
def stripAssignA : List Char → Nat → List Char
  | [], _ => []
  | _ :: tl, skip + 1 => stripAssignA tl skip
  | c :: tl, 0 =>
    if c = '%' ∧ (tl.takeWhile pyDigit).length ≠ 0 ∧
        ((tl.dropWhile pyDigit).dropWhile pySpace).head? = some '=' then
      stripAssignA tl
        ((tl.takeWhile pyDigit).length
          + ((tl.dropWhile pyDigit).takeWhile pySpace).length
          + 1
          + (((tl.dropWhile pyDigit).dropWhile pySpace).tail.takeWhile pySpace).length)
    else c :: stripAssignA tl 0

def stripAssign (l : List Char) : List Char :=
  stripAssignA l 0

/-- One attempt of `call\s+[^@]*@(\w+)` at the start of `t`; returns the
captured callee name. -/
def matchCallAt (t : List Char) : Option (List Char) :=
  if pyStarts "call".data t then
    match (t.drop 4).head? with
    | some h =>
      if pySpace h then
        match (t.drop 4).dropWhile (fun x => x ≠ '@') with
        | _ :: w => if (w.takeWhile pyWord).isEmpty then none else some (w.takeWhile pyWord)
        | [] => none
      else none
    | none => none
  else none

/-- `re.search(r'call\s+[^@]*@(\w+)', t)`. -/
def searchCall : List Char → Option (List Char)
  | [] => none
  | c :: tl =>
    match matchCallAt (c :: tl) with
    | some n => some n
    | none => searchCall tl

/-- One attempt of `ret\s+(.+)` at the start of `t`; returns group 1 with
the `re` backtracking semantics of `\s+` followed by a greedy `.+`. -/
def matchRetAt (t : List Char) : Option (List Char) :=
  if pyStarts "ret".data t then
    if ((t.drop 3).takeWhile pySpace).isEmpty then none
    else
      match (t.drop 3).dropWhile pySpace with
      | a :: rest => some ((a :: rest).takeWhile (fun x => x ≠ '\n'))
      | [] =>
        match (((t.drop 3).takeWhile pySpace).drop 1).reverse.find? (fun x => x ≠ '\n') with
        | some ch => some [ch]
        | none => none
  else none

/-- `re.search(r'ret\s+(.+)', t)`. -/
def searchRet : List Char → Option (List Char)
  | [] => none
  | c :: tl =>
    match matchRetAt (c :: tl) with
    | some g => some g
    | none => searchRet tl

/-- Group-3 parse for the binary-operation patterns: `\s*(.+)` after the
comma, with greedy backtracking when only whitespace remains. -/
def g3Parse (A : List Char) : Option (List Char) :=
  match A.dropWhile pySpace with
  | a :: rest => some ((a :: rest).takeWhile (fun x => x ≠ '\n'))
  | [] =>
    match (A.takeWhile pySpace).reverse.find? (fun x => x ≠ '\n') with
    | some ch => some [ch]
    | none => none

/-- Lazy search of `(.+?),\s*(.+)`: the first comma (with a nonempty,
newline-free group 2 before it) whose tail parses. -/
def findCommaSplit : List Char → List Char → Option (List Char × List Char)
  | _, [] => none
  | pre, c :: after =>
    if c = '\n' then none
    else if c = ',' ∧ ¬pre.isEmpty then
      match g3Parse after with
      | some g3 => some (pre.reverse, g3)
      | none => findCommaSplit (c :: pre) after
    else findCommaSplit (c :: pre) after

/-- Backtracking over the length of the `\s+` between the operator literal
and the lazy group 2, longest first (`j` counts the candidates left). -/
def binopWsBacktrack (w afterW : List Char) : Nat → Option (List Char × List Char)
  | 0 => none
  | j + 1 =>
    match findCommaSplit [] (w.drop (j + 1) ++ afterW) with
    | some r => some r
    | none => binopWsBacktrack w afterW j

/-- One attempt of `<op>\s+(.+?),\s*(.+)` at the start of `t`. -/
def matchBinopAt (op t : List Char) : Option (List Char × List Char) :=
  if pyStarts op t then
    if ((t.drop op.length).takeWhile pySpace).isEmpty then none
    else
      binopWsBacktrack ((t.drop op.length).takeWhile pySpace)
        ((t.drop op.length).dropWhile pySpace)
        ((t.drop op.length).takeWhile pySpace).length
  else none

/-- `re.search(f'<op>\s+(.+?),\s*(.+)', t)`. -/
def searchBinop (op : List Char) : List Char → Option (List Char × List Char)
  | [] => none
  | c :: tl =>
    match matchBinopAt op (c :: tl) with
    | some r => some r
    | none => searchBinop op tl

/-- `re.search(r'(add|sub|mul)\s+(.+?),\s*(.+)', t)` — the report tool's
single alternation search; returns the C operator symbol for the matched
alternative together with groups 2 and 3. -/
def searchAddSubMul : List Char → Option (Char × List Char × List Char)
  | [] => none
  | c :: tl =>
    match matchBinopAt "add".data (c :: tl) with
    | some (g2, g3) => some ('+', g2, g3)
    | none =>
      match matchBinopAt "sub".data (c :: tl) with
      | some (g2, g3) => some ('-', g2, g3)
      | none =>
        match matchBinopAt "mul".data (c :: tl) with
        | some (g2, g3) => some ('*', g2, g3)
        | none => searchAddSubMul tl

/-- `re.search(r'\(([^)]*)\)', t)` — the first parenthesis group. -/
def searchParens : List Char → Option (List Char)
  | [] => none
  | c :: tl =>
    if c = '(' then
      if (tl.takeWhile (fun x => x ≠ ')')).length < tl.length then
        some (tl.takeWhile (fun x => x ≠ ')'))
      else none
    else searchParens tl

/-- `IRToCConverter._simplify_value`. -/
def simplifyValue (v0 : List Char) : List Char :=
  let v := pyStrip v0
  if ¬v.isEmpty ∧ v.all pyDigit then v
  else
    match v with
    | '%' :: rest => if rest.isEmpty then "var".data else rest
    | '@' :: rest => if rest.isEmpty then "global".data else rest
    | _ => v.take 20

/-- Python `args.split(',')`. -/
def splitComma : List Char → List (List Char)
  | [] => [[]]
  | c :: tl =>
    match splitComma tl with
    | [] => [[c]]
    | h :: t => if c = ',' then [] :: h :: t else (c :: h) :: t

/-- `', '.join(parts)`. -/
def joinCommaSpace : List (List Char) → List Char
  | [] => []
  | [x] => x
  | x :: y :: t => x ++ ", ".data ++ joinCommaSpace (y :: t)

/-- `IRToCConverter._simplify_args`. -/
def simplifyArgs (args : List Char) : List Char :=
  if (pyStrip args).isEmpty then []
  else
    joinCommaSpace
      (((splitComma args).take 5).map (fun a => simplifyValue (pyStrip a)) ++
        (if 5 < (splitComma args).length then ["...".data] else []))

/-- `CDecompiler._convert_instruction` (report tool). -/
def decConvert (instr0 : List Char) : Option (List Char) :=
  let instr := stripAssign instr0
  match (if pyIn "call".data instr then searchCall instr else none) with
  | some name =>
    if pyStarts "llvm.".data name then none else some (name ++ "(...);".data)
  | none =>
    match (if pyIn "ret".data instr then searchRet instr else none) with
    | some g =>
      if pyStrip g = "void".data ∨ (pyStrip g).isEmpty then some "return;".data
      else some ("return ".data ++ pyStrip g ++ [';'])
    | none =>
      match (if pyIn "add".data instr ∨ pyIn "sub".data instr ∨ pyIn "mul".data instr
             then searchAddSubMul instr else none) with
      | some (sym, g2, g3) => some ("// ".data ++ g2 ++ [' ', sym, ' '] ++ g3)
      | none =>
        if pyIn "br".data instr then some "// branch instruction".data
        else if pyIn "load".data instr ∨ pyIn "store".data instr then
          some "// memory operation".data
        else none

/-- One step of the converter's arithmetic/comparison loops: presence test
then pattern search for a single operator. -/
def irTryOp (instr op sym : List Char) : Option (List Char) :=
  if pyIn op instr then
    match searchBinop op instr with
    | some (g2, g3) =>
      some ("// ".data ++ simplifyValue g2 ++ [' '] ++ sym ++ [' '] ++ simplifyValue g3)
    | none => none
  else none

/-- `IRToCConverter._convert_instruction` (standalone converter). -/
def irConvert (instr0 : List Char) : Option (List Char) :=
  let instr := stripAssign instr0
  match (if pyIn "ret".data instr then searchRet instr else none) with
  | some g =>
    if pyIn "void".data (pyStrip g) ∨ (pyStrip g).isEmpty ∨ pyStrip g = "undef".data then
      some "return;".data
    else some ("return ".data ++ simplifyValue (pyStrip g) ++ [';'])
  | none =>
    match (if pyIn "call".data instr then searchCall instr else none) with
    | some name =>
      if pyStarts "llvm.".data name then none
      else
        match searchParens instr with
        | some args => some (name ++ ['('] ++ simplifyArgs args ++ ");".data)
        | none => some (name ++ "();".data)
    | none =>
      match irTryOp instr "add".data "+".data with
      | some r => some r
      | none =>
      match irTryOp instr "sub".data "-".data with
      | some r => some r
      | none =>
      match irTryOp instr "mul".data "*".data with
      | some r => some r
      | none =>
      match irTryOp instr "udiv".data "/".data with
      | some r => some r
      | none =>
      match irTryOp instr "sdiv".data "/".data with
      | some r => some r
      | none =>
      match irTryOp instr "icmp eq".data "==".data with
      | some r => some r
      | none =>
      match irTryOp instr "icmp ne".data "!=".data with
      | some r => some r
      | none =>
      match irTryOp instr "icmp ult".data "<".data with
      | some r => some r
      | none =>
      match irTryOp instr "icmp ugt".data ">".data with
      | some r => some r
      | none =>
        if pyIn "br".data instr then some "// branch".data
        else if pyIn "load".data instr ∨ pyIn "store".data instr then
          some "// memory operation".data
        else if pyIn "alloca".data instr then some "// local variable".data
        else none

/-! ## §4.2 body analysis of the report tool
(`decompile_analysis.LLVMIRParser._extract_functions` lines 105-113):

    basic_blocks = len(re.findall(r'^\s*\d+:', func_body, re.MULTILINE))
    instructions = re.findall(r'^\s*[^;]+', func_body, re.MULTILINE)
    instructions = [i.strip() for i in instructions if i.strip() and not i.strip().startswith(';')]
    complexity = len(instructions) + basic_blocks * 2

Note that `[^;]` matches newline characters, so one `findall` match of
`^\s*[^;]+` runs from a line start to the next `;` (or the end of the body),
possibly spanning many lines. -/

/-- One attempt of `^\s*[^;]+` at a line-start position. -/
def chunkMatchAt (t : List Char) : Option (List Char) :=
  match t.dropWhile pySpace with
  | c :: rest =>
    if c = ';' then
      if (t.takeWhile pySpace).isEmpty then none else some (t.takeWhile pySpace)
    else some (t.takeWhile pySpace ++ (c :: rest).takeWhile (fun x => x ≠ ';'))
  | [] => if (t.takeWhile pySpace).isEmpty then none else some (t.takeWhile pySpace)

/-- `re.findall(r'^\s*[^;]+', body, re.MULTILINE)`: scan carrying a skip
counter for the remainder of the current match and the MULTILINE `^`
anchor flag (true at position 0 and after each newline). -/
def chunkScanA : List Char → Nat → Bool → List (List Char)
  | [], _, _ => []
  | c :: tl, skip + 1, _ => chunkScanA tl skip (c = '\n')
  | c :: tl, 0, atStart =>
    if atStart then
      match chunkMatchAt (c :: tl) with
      | some m => m :: chunkScanA tl (m.length - 1) (c = '\n')
      | none => chunkScanA tl 0 (c = '\n')
    else chunkScanA tl 0 (c = '\n')

def extractInstructionChunks (body : List Char) : List (List Char) :=
  chunkScanA body 0 true

/-- The `instructions` list: stripped chunks, dropping blank and
comment-leading ones. -/
def extractedInstructions (body : List Char) : List (List Char) :=
  ((extractInstructionChunks body).map pyStrip).filter
    (fun i => !i.isEmpty && !pyStarts [';'] i)

/-- One attempt of `^\s*\d+:` at a line-start position; returns the match
length. -/
def labelMatchAt (t : List Char) : Option Nat :=
  if ((t.dropWhile pySpace).takeWhile pyDigit).isEmpty then none
  else
    match ((t.dropWhile pySpace).drop ((t.dropWhile pySpace).takeWhile pyDigit).length).head? with
    | some ':' =>
      some ((t.takeWhile pySpace).length + ((t.dropWhile pySpace).takeWhile pyDigit).length + 1)
    | _ => none

/-- `len(re.findall(r'^\s*\d+:', body, re.MULTILINE))`. -/
def labelScanA : List Char → Nat → Bool → Nat
  | [], _, _ => 0
  | c :: tl, skip + 1, _ => labelScanA tl skip (c = '\n')
  | c :: tl, 0, atStart =>
    if atStart then
      match labelMatchAt (c :: tl) with
      | some len => 1 + labelScanA tl (len - 1) (c = '\n')
      | none => labelScanA tl 0 (c = '\n')
    else labelScanA tl 0 (c = '\n')

/-- `basic_blocks` of a function body. -/
def countLabels (body : List Char) : Nat :=
  labelScanA body 0 true

/-- `complexity = len(instructions) + basic_blocks * 2`. -/
def complexityOf (body : List Char) : Nat :=
  (extractedInstructions body).length + countLabels body * 2

/-! ## §4.1/§4.2 function extraction
(`decompile_analysis.LLVMIRParser._extract_functions` lines 81-122 and
`ir_to_c.IRToCConverter._extract_functions` lines 50-83; both use the same
pattern)

    define\s+(?:dso_local\s+)?(?:internal\s+)?([^@]+?)\s+@(\w+)\s*\(([^)]*)\)\s*\{

The optional qualifier groups and the `\s+` runs backtrack (longest first,
option present before absent), and the lazy `([^@]+?)` grows shortest first;
the model below reproduces that exploration order. -/

/-- Backtracking over the length of a `\s+` run: try the whole run `w`
first, then hand ever longer whitespace tails to the continuation. -/
def wsBack {α : Type} (w after : List Char) (cont : List Char → Option α) : Nat → Option α
  | 0 => none
  | k + 1 =>
    match cont (w.drop (k + 1) ++ after) with
    | some r => some r
    | none => wsBack w after cont k

/-- `([^@]+?)\s+@(\w+)\s*\(([^)]*)\)\s*\{` — the tail of the header pattern:
returns (group 1, name, params, suffix after the opening brace). -/
def groupParse (g : List Char) : Option (List Char × List Char × List Char × List Char) :=
  let pre := g.takeWhile (fun x => x ≠ '@')
  if pre.length = g.length then none
  else
    let d := (pre.reverse.takeWhile pySpace).length
    if d = 0 then none
    else
      let j := if 1 ≤ pre.length - d then pre.length - d
               else if 2 ≤ pre.length then 1 else 0
      if j = 0 then none
      else
        let name := (g.drop (pre.length + 1)).takeWhile pyWord
        if name.isEmpty then none
        else
          let u3 := ((g.drop (pre.length + 1)).drop name.length).dropWhile pySpace
          match u3.head? with
          | some '(' =>
            let inner := (u3.drop 1).takeWhile (fun x => x ≠ ')')
            if inner.length < (u3.drop 1).length then
              let u5 := ((u3.drop 1).drop (inner.length + 1)).dropWhile pySpace
              match u5.head? with
              | some '\x7b' => some (pre.take j, name, inner, u5.drop 1)
              | _ => none
            else none
          | _ => none

/-- `(?:internal\s+)?` then the group tail. -/
def qualsInternal (g : List Char) : Option (List Char × List Char × List Char × List Char) :=
  (if pyStarts "internal".data g then
     (if ((g.drop 8).takeWhile pySpace).isEmpty then none
      else wsBack ((g.drop 8).takeWhile pySpace) ((g.drop 8).dropWhile pySpace)
        groupParse ((g.drop 8).takeWhile pySpace).length)
   else none) <|> groupParse g

/-- `(?:dso_local\s+)?` then the rest. -/
def qualsDso (g : List Char) : Option (List Char × List Char × List Char × List Char) :=
  (if pyStarts "dso_local".data g then
     (if ((g.drop 9).takeWhile pySpace).isEmpty then none
      else wsBack ((g.drop 9).takeWhile pySpace) ((g.drop 9).dropWhile pySpace)
        qualsInternal ((g.drop 9).takeWhile pySpace).length)
   else none) <|> qualsInternal g

/-- One attempt of the whole header pattern at the start of `t`. -/
def matchDefineAt (t : List Char) : Option (List Char × List Char × List Char × List Char) :=
  if pyStarts "define".data t then
    if ((t.drop 6).takeWhile pySpace).isEmpty then none
    else wsBack ((t.drop 6).takeWhile pySpace) ((t.drop 6).dropWhile pySpace)
      qualsDso ((t.drop 6).takeWhile pySpace).length
  else none

/-- `re.finditer` over the whole listing; each hit records
(raw group 1, name, raw params, suffix after the opening brace).
The scan resumes at the end of each match. -/
def findDefinesA : List Char → Nat → List (List Char × List Char × List Char × List Char)
  | [], _ => []
  | _ :: tl, skip + 1 => findDefinesA tl skip
  | c :: tl, 0 =>
    match matchDefineAt (c :: tl) with
    | some (rt, nm, ps, rest) =>
      (rt, nm, ps, rest) :: findDefinesA tl ((c :: tl).length - rest.length - 1)
    | none => findDefinesA tl 0

def findDefines (text : List Char) : List (List Char × List Char × List Char × List Char) :=
  findDefinesA text 0

/-- `func_body = content[start_pos:end_pos-1]` via the brace scan started at
depth 1 on the suffix after the opening brace. -/
def bodyOf (rest : List Char) : List Char :=
  rest.take ((braceScan rest 1).1 - 1)

/-- `re.search(r'%\w+', param)`. -/
def searchPercentWord : List Char → Option (List Char)
  | [] => none
  | c :: tl =>
    if c = '%' ∧ ¬(tl.takeWhile pyWord).isEmpty then some ('%' :: tl.takeWhile pyWord)
    else searchPercentWord tl

/-- `LLVMIRParser._parse_params` (applied to the stripped params string). -/
def parseParams (s : List Char) : List (List Char) :=
  if s.isEmpty then []
  else
    (((splitComma s).map pyStrip).filter (fun p => !p.isEmpty)).map
      (fun p => (searchPercentWord p).getD p)

/-- The per-function record built by the report tool. -/
structure FunctionInfo where
  name : List Char
  params : List (List Char)
  returnType : List Char
  instructions : List (List Char)
  basicBlocks : Nat
  complexity : Nat
  deriving DecidableEq

/-- The entry stored by the standalone converter. -/
structure IrFuncEntry where
  returnType : List Char
  params : List Char
  body : List Char
  name : List Char
  deriving DecidableEq

/-! Python `dict` with string keys: assignment replaces the value of an
existing key in place, otherwise appends; iteration order is key insertion
order. -/

def dictInsert {α : Type} (d : List (List Char × α)) (k : List Char) (v : α) :
    List (List Char × α) :=
  if d.any (fun p => decide (p.1 = k)) then
    d.map (fun p => if p.1 = k then (k, v) else p)
  else d ++ [(k, v)]

def dictLookup {α : Type} (k : List Char) (d : List (List Char × α)) : Option α :=
  (d.find? (fun p => decide (p.1 = k))).map (fun p => p.2)

def dictKeys {α : Type} (d : List (List Char × α)) : List (List Char) :=
  d.map (fun p => p.1)

/-- `FunctionInfo` from one header match (report tool, lines 115-122). -/
def decBuildInfo (m : List Char × List Char × List Char × List Char) : FunctionInfo :=
  { name := m.2.1
    params := parseParams (pyStrip m.2.2.1)
    returnType := pyStrip m.1
    instructions := extractedInstructions (bodyOf m.2.2.2)
    basicBlocks := countLabels (bodyOf m.2.2.2)
    complexity := complexityOf (bodyOf m.2.2.2) }

/-- `self.functions` of `LLVMIRParser` — no name is skipped. -/
def decFunctions (text : List Char) : List (List Char × FunctionInfo) :=
  (findDefines text).foldl (fun d m => dictInsert d m.2.1 (decBuildInfo m)) []

/-- `IrFuncEntry` from one header match (converter, lines 78-83). -/
def irBuildEntry (m : List Char × List Char × List Char × List Char) : IrFuncEntry :=
  { returnType := pyStrip m.1
    params := pyStrip m.2.2.1
    body := bodyOf m.2.2.2
    name := m.2.1 }

/-- `self.functions` of `IRToCConverter` — reserved names are skipped
(lines 60-62). -/
def irFunctions (text : List Char) : List (List Char × IrFuncEntry) :=
  (findDefines text).foldl
    (fun d m =>
      if pyStarts "llvm.".data m.2.1 ∨ pyStarts "__".data m.2.1 then d
      else dictInsert d m.2.1 (irBuildEntry m))
    []

/-- A name passes the converter's skip rule. -/
def okName (k : List Char) : Bool :=
  !(pyStarts "llvm.".data k || pyStarts "__".data k)

/-- `ObfuscationMetrics.total_functions` (`get_metrics` line 171). -/
def totalFunctions (text : List Char) : Nat :=
  (decFunctions text).length

/-- `ObfuscationMetrics.total_instructions` (`get_metrics` line 168). -/
def totalInstructions (text : List Char) : Nat :=
  ((decFunctions text).map (fun p => p.2.instructions.length)).sum

/-! ## §4.4 whole-body lowering and its output caps
(`decompile_analysis.CDecompiler.decompile_function` lines 189-209 and
`ir_to_c.IRToCConverter._decompile_body` lines 140-164.) -/

/-- `CDecompiler._convert_type`: first hit in the insertion-ordered type map,
then the pointer fallback. -/
def convertTypeDec (t : List Char) : List Char :=
  if pyIn "i32".data t then "int".data
  else if pyIn "i64".data t then "long".data
  else if pyIn "i8".data t then "char".data
  else if pyIn "void".data t then "void".data
  else if pyIn "float".data t then "float".data
  else if pyIn "double".data t then "double".data
  else if pyIn "ptr".data t || pyIn "*".data t then "void*".data
  else "int".data

/-- The parameter list of the generated signature. -/
def decParamStr (ps : List (List Char)) : List Char :=
  joinCommaSpace (ps.map (fun p =>
    match p with
    | '%' :: rest => "int ".data ++ rest
    | _ => "int ".data ++ p))

/-- The lines produced by `CDecompiler.decompile_function`: the signature,
the lowered forms of the first 20 instructions, a summary comment when more
than 20 instructions exist, and the closing brace. -/
def decompileFunctionLines (fi : FunctionInfo) : List (List Char) :=
  [convertTypeDec fi.returnType ++ [' '] ++ fi.name ++ ['('] ++ decParamStr fi.params
      ++ ") \x7b".data]
    ++ ((fi.instructions.take 20).filterMap decConvert).map (fun c => "    ".data ++ c)
    ++ (if 20 < fi.instructions.length then
          ["    // ... ".data ++ (Nat.repr (fi.instructions.length - 20)).data
            ++ " more instructions ...".data]
        else [])
    ++ ["\x7d".data]

/-- One attempt of the `re.split` pattern `(\d+):\s*\n` (not anchored);
returns the captured digits and the match length.  The greedy `\s*` backs
off to end the match at the last newline of the whitespace run. -/
def splitLabelMatchAt (t : List Char) : Option (List Char × Nat) :=
  if (t.takeWhile pyDigit).isEmpty then none
  else
    match (t.drop (t.takeWhile pyDigit).length).head? with
    | some ':' =>
      if ((((t.drop ((t.takeWhile pyDigit).length + 1)).takeWhile pySpace).reverse.takeWhile
            (fun x => x ≠ '\n')).length <
          ((t.drop ((t.takeWhile pyDigit).length + 1)).takeWhile pySpace).length) then
        some (t.takeWhile pyDigit,
          (t.takeWhile pyDigit).length + 1 +
            (((t.drop ((t.takeWhile pyDigit).length + 1)).takeWhile pySpace).length -
              (((t.drop ((t.takeWhile pyDigit).length + 1)).takeWhile pySpace).reverse.takeWhile
                (fun x => x ≠ '\n')).length))
      else none
    | _ => none

/-- `re.split(r'(\d+):\s*\n', body)`: alternating text parts and captured
digit groups. -/
def splitLabelsA : List Char → Nat → List Char → List (List Char)
  | [], _, acc => [acc.reverse]
  | _ :: tl, skip + 1, acc => splitLabelsA tl skip acc
  | c :: tl, 0, acc =>
    match splitLabelMatchAt (c :: tl) with
    | some (d, len) => acc.reverse :: d :: splitLabelsA tl (len - 1) []
    | none => splitLabelsA tl 0 (c :: acc)

def pySplitLabels (body : List Char) : List (List Char) :=
  splitLabelsA body 0 []

/-- Python `part.split('\n')`. -/
def splitNl : List Char → List (List Char)
  | [] => [[]]
  | c :: tl =>
    match splitNl tl with
    | [] => [[c]]
    | h :: t => if c = '\n' then [] :: h :: t else (c :: h) :: t

/-- The lines one split part contributes in `_decompile_body`. -/
def partLines (part : List Char) : List (List Char) :=
  if ¬(pyStrip part).isEmpty ∧ (pyStrip part).all pyDigit then
    ["// Basic block ".data ++ part ++ [':']]
  else
    (splitNl part).filterMap (fun line =>
      if (pyStrip line).isEmpty ∨ pyStarts [';'] (pyStrip line) then none
      else irConvert (pyStrip line))

/-- All lines `_decompile_body` accumulates before the cap. -/
def irDecompileBodyAll (body : List Char) : List (List Char) :=
  ((pySplitLabels body).map partLines).flatten

/-- `IRToCConverter._decompile_body` — `return lines[:30]`, with no summary
comment about dropped lines. -/
def irDecompileBody (body : List Char) : List (List Char) :=
  (irDecompileBodyAll body).take 30

/-! ## Supporting lemmas -/

lemma takeWhile_nil_of_not {p : Char → Bool} {l : List Char} (h : ∀ x ∈ l, ¬ p x) :
    l.takeWhile p = [] := by
  cases l with
  | nil => rfl
  | cons c tl =>
    rw [List.takeWhile_cons]
    have := h c (List.mem_cons_self c tl)
    simp [this]

lemma takeWhile_self_of_all {p : Char → Bool} {l : List Char} (h : ∀ x ∈ l, p x) :
    l.takeWhile p = l := by
  induction l with
  | nil => rfl
  | cons c tl ih =>
    rw [List.takeWhile_cons]
    have hc := h c (List.mem_cons_self c tl)
    simp only [hc, if_true]
    rw [ih (fun x hx => h x (List.mem_cons_of_mem c hx))]

lemma dropWhile_self_of_not {p : Char → Bool} {l : List Char} (h : ∀ x ∈ l, ¬ p x) :
    l.dropWhile p = l := by
  cases l with
  | nil => rfl
  | cons c tl =>
    rw [List.dropWhile_cons]
    have := h c (List.mem_cons_self c tl)
    simp [this]

lemma mem_dropWhile_of_not {p : Char → Bool} {l : List Char} {x : Char}
    (hx : x ∈ l) (hp : ¬ p x) : x ∈ l.dropWhile p := by
  induction l with
  | nil => exact absurd hx (List.not_mem_nil x)
  | cons c tl ih =>
    rw [List.dropWhile_cons]
    by_cases hc : p c
    · simp only [hc, if_true]
      rcases List.mem_cons.mp hx with rfl | hmem
      · exact absurd hc hp
      · exact ih hmem
    · simp [hc, hx]

lemma mem_of_mem_dropWhile {p : Char → Bool} {l : List Char} {x : Char}
    (hx : x ∈ l.dropWhile p) : x ∈ l :=
  (List.dropWhile_sublist p).subset hx

lemma mem_of_mem_pyStrip {l : List Char} {x : Char} (hx : x ∈ pyStrip l) : x ∈ l := by
  rw [pyStrip] at hx
  rw [List.mem_reverse] at hx
  have h1 := mem_of_mem_dropWhile hx
  rw [List.mem_reverse] at h1
  exact mem_of_mem_dropWhile h1

lemma pyStrip_ne_nil {l : List Char} {x : Char} (hx : x ∈ l) (hp : ¬ pySpace x) :
    pyStrip l ≠ [] := by
  rw [pyStrip]
  intro hcon
  have h1 : x ∈ l.dropWhile pySpace := mem_dropWhile_of_not hx hp
  have h2 : x ∈ (l.dropWhile pySpace).reverse := List.mem_reverse.mpr h1
  have h3 : x ∈ ((l.dropWhile pySpace).reverse.dropWhile pySpace) :=
    mem_dropWhile_of_not h2 hp
  rw [List.reverse_eq_nil_iff] at hcon
  rw [hcon] at h3
  exact List.not_mem_nil x h3

lemma pyStrip_id {l : List Char} (h : ∀ x ∈ l, ¬ pySpace x) : pyStrip l = l := by
  rw [pyStrip, dropWhile_self_of_not h, dropWhile_self_of_not (fun x hx => h x (List.mem_reverse.mp hx)),
    List.reverse_reverse]

lemma pyIn_of_isPrefixOf {pat l : List Char} (h : pat.isPrefixOf l = true) :
    pyIn pat l = true := by
  cases l with
  | nil =>
    have : pat = [] := by
      cases pat with
      | nil => rfl
      | cons a t => simp [List.isPrefixOf] at h
    rw [this]
    rfl
  | cons c tl =>
    rw [pyIn, h]
    rfl

lemma stripAssignA_id {l : List Char} (h : ∀ x ∈ l, x ≠ '%') : stripAssignA l 0 = l := by
  induction l with
  | nil => rfl
  | cons c tl ih =>
    rw [stripAssignA]
    have hc : ¬ (c = '%' ∧ (tl.takeWhile pyDigit).length ≠ 0 ∧
        ((tl.dropWhile pyDigit).dropWhile pySpace).head? = some '=') := by
      intro hcon
      exact h c (List.mem_cons_self c tl) hcon.1
    rw [if_neg hc, ih (fun x hx => h x (List.mem_cons_of_mem c hx))]

lemma stripAssign_id {l : List Char} (h : ∀ x ∈ l, x ≠ '%') : stripAssign l = l :=
  stripAssignA_id h

lemma chunkScanA_skip_ge : ∀ (l : List Char) (skip : Nat) (f : Bool),
    l.length ≤ skip → chunkScanA l skip f = [] := by
  intro l
  induction l with
  | nil => intro skip f _; rfl
  | cons c tl ih =>
    intro skip f hlen
    rw [List.length_cons] at hlen
    cases skip with
    | zero => omega
    | succ s =>
      rw [chunkScanA]
      exact ih s (c = '\n') (by omega)

/-- A comment-free body with a non-blank character is one single `findall`
match of `^\s*[^;]+`. -/
lemma chunks_single {body : List Char} (hsemi : ∀ c ∈ body, c ≠ ';')
    {x : Char} (hx : x ∈ body) (hxw : ¬ pySpace x) :
    extractInstructionChunks body = [body] := by
  cases body with
  | nil => exact absurd hx (List.not_mem_nil x)
  | cons c tl =>
    have hmatch : chunkMatchAt (c :: tl) = some (c :: tl) := by
      have hu : x ∈ (c :: tl).dropWhile pySpace := mem_dropWhile_of_not hx hxw
      rcases hd : (c :: tl).dropWhile pySpace with _ | ⟨a, rest⟩
      · rw [hd] at hu
        exact absurd hu (List.not_mem_nil x)
      · have ha : a ≠ ';' := by
          apply hsemi
          apply mem_of_mem_dropWhile (p := pySpace)
          rw [hd]
          exact List.mem_cons_self a rest
        have htw : (a :: rest).takeWhile (fun x => x ≠ ';') = a :: rest := by
          apply takeWhile_self_of_all
          intro y hy
          have hyb : y ∈ c :: tl := by
            apply mem_of_mem_dropWhile (p := pySpace)
            rw [hd]
            exact hy
          simp [hsemi y hyb]
        have happ : (c :: tl).takeWhile pySpace ++ (a :: rest) = c :: tl := by
          rw [← hd]
          exact List.takeWhile_append_dropWhile pySpace (c :: tl)
        simp only [chunkMatchAt]
        rw [hd]
        simp only [if_neg ha]
        rw [htw, happ]
    rw [extractInstructionChunks]
    simp only [chunkScanA, if_pos rfl]
    rw [hmatch]
    simp only []
    rw [chunkScanA_skip_ge tl ((c :: tl).length - 1) (decide (c = '\n')) (by simp)]
    simp

lemma extractedInstructions_single {body : List Char} (hsemi : ∀ c ∈ body, c ≠ ';')
    {x : Char} (hx : x ∈ body) (hxw : ¬ pySpace x) :
    extractedInstructions body = [pyStrip body] := by
  rw [extractedInstructions, chunks_single hsemi hx hxw]
  have hne : pyStrip body ≠ [] := pyStrip_ne_nil hx hxw
  rcases hs : pyStrip body with _ | ⟨h, t⟩
  · exact absurd hs hne
  · have hh : h ≠ ';' := by
      apply hsemi
      apply mem_of_mem_pyStrip
      rw [hs]
      exact List.mem_cons_self h t
    simp [pyStarts, List.isPrefixOf, hs, hh, Ne.symm hh]

lemma occCount_cons (pat : List Char) (c : Char) (tl : List Char) :
    occCount pat (c :: tl) = (if pat.isPrefixOf (c :: tl) then 1 else 0) + occCount pat tl :=
  rfl

lemma occCount_tail_le (pat : List Char) (c : Char) (tl : List Char) :
    occCount pat tl ≤ occCount pat (c :: tl) := by
  rw [occCount_cons]; omega

lemma occCount_drop_le (pat t : List Char) (k : Nat) :
    occCount pat (t.drop k) ≤ occCount pat t := by
  induction t generalizing k with
  | nil => simp [occCount]
  | cons c tl ih =>
    cases k with
    | zero => exact Nat.le_refl _
    | succ k =>
      calc occCount pat ((c :: tl).drop (k + 1)) = occCount pat (tl.drop k) := rfl
        _ ≤ occCount pat tl := ih k
        _ ≤ occCount pat (c :: tl) := occCount_tail_le pat c tl

lemma occCount_zero_not_isPrefixOf {pat t : List Char} (hne : pat ≠ [])
    (h : occCount pat t = 0) : pat.isPrefixOf t = false := by
  cases t with
  | nil =>
    cases pat with
    | nil => exact absurd rfl hne
    | cons a l => rfl
  | cons c tl =>
    rw [occCount_cons] at h
    by_cases hp : pat.isPrefixOf (c :: tl)
    · simp [hp] at h
    · simp [hp]

/-- A position strictly inside a `0xDEADBEEF` occurrence cannot start another
occurrence: the literal has no nontrivial border. -/
lemma dead_no_overlap {t : List Char} (h : deadbeefL.isPrefixOf t) {j : Nat}
    (hj0 : 0 < j) (hj : j < 10) : deadbeefL.isPrefixOf (t.drop j) = false := by
  cases hb : deadbeefL.isPrefixOf (t.drop j) with
  | false => rfl
  | true =>
  exfalso
  have hp2 : deadbeefL <+: t.drop j := (List.isPrefixOf_iff_prefix).mp hb
  have hp1 : deadbeefL <+: t := (List.isPrefixOf_iff_prefix).mp h
  obtain ⟨r, hr⟩ := hp1
  have hdrop : t.drop j = deadbeefL.drop j ++ r := by
    have hlen : deadbeefL.length = 10 := by decide
    rw [← hr, List.drop_append_eq_append_drop, hlen]
    have : j - 10 = 0 := by omega
    rw [this, List.drop_zero]
  rw [hdrop] at hp2
  have hpre : deadbeefL.drop j <+: deadbeefL.drop j ++ r := List.prefix_append _ _
  have hlen2 : (deadbeefL.drop j).length ≤ deadbeefL.length := by
    rw [List.length_drop]; omega
  have hfin : deadbeefL.drop j <+: deadbeefL :=
    List.prefix_of_prefix_length_le hpre hp2 hlen2
  have hdec : ∀ i, i < 10 → 0 < i → ¬ (deadbeefL.drop i <+: deadbeefL) := by decide
  exact hdec j hj hj0 hfin

lemma occCount_step (pat t : List Char) (j : Nat) (hj : j < t.length) :
    occCount pat (t.drop j) =
      (if pat.isPrefixOf (t.drop j) then 1 else 0) + occCount pat (t.drop (j + 1)) := by
  rcases hd : t.drop j with _ | ⟨a, l⟩
  · have : (t.drop j).length = 0 := by rw [hd]; rfl
    rw [List.length_drop] at this; omega
  · have htail : t.drop (j + 1) = l := by
      have := List.tail_drop t j
      rw [hd] at this
      exact this.symm
    rw [htail, ← hd]
    rw [hd, occCount_cons]

/-- Inside a `0xDEADBEEF` occurrence the next nine positions contribute
nothing, so the count restarts ten characters later. -/
lemma occCount_dead_block {t : List Char} (h : deadbeefL.isPrefixOf t) :
    occCount deadbeefL t = occCount deadbeefL (t.drop 10) + 1 := by
  have hlen : 10 ≤ t.length := by
    have hp : deadbeefL <+: t := (List.isPrefixOf_iff_prefix).mp h
    have := hp.length_le
    have h10 : deadbeefL.length = 10 := by decide
    omega
  have key : ∀ m, m ≤ 9 → occCount deadbeefL (t.drop (10 - m)) = occCount deadbeefL (t.drop 10) := by
    intro m
    induction m with
    | zero => intro _; rfl
    | succ k ih =>
      intro hk
      have hj : 10 - (k + 1) < t.length := by omega
      rw [occCount_step deadbeefL t (10 - (k + 1)) hj]
      have hstep : 10 - (k + 1) + 1 = 10 - k := by omega
      rw [hstep, dead_no_overlap h (by omega) (by omega), ih (by omega)]
      simp
  have h0 : occCount deadbeefL t = 1 + occCount deadbeefL (t.drop 1) := by
    have := occCount_step deadbeefL t 0 (by omega)
    rw [List.drop_zero] at this
    rw [this, h]
    simp
  have h1 : occCount deadbeefL (t.drop 1) = occCount deadbeefL (t.drop 10) := by
    have := key 9 (by omega)
    simpa using this
  omega

/-- When the input contains no `0xCAFEBABE` occurrence, the alternation scan
counts exactly the `0xDEADBEEF` occurrences. -/
lemma bogusScan_eq_occCount : ∀ t : List Char, occCount cafebabeL t = 0 →
    bogusScan t = occCount deadbeefL t := by
  intro t
  induction t using bogusScan.induct with
  | case1 => intro _; simp [bogusScan, occCount]
  | case2 c tl hdead ih =>
    intro hc
    rw [bogusScan]
    simp only [hdead, if_pos]
    have hdrop : tl.drop 9 = (c :: tl).drop 10 := rfl
    have hc10 : occCount cafebabeL ((c :: tl).drop 10) = 0 :=
      Nat.le_antisymm (hc ▸ occCount_drop_le cafebabeL (c :: tl) 10) (Nat.zero_le _)
    rw [hdrop] at ih ⊢
    rw [ih hc10, ← occCount_dead_block hdead]
  | case3 c tl hdead hcafe ih =>
    intro hc
    exfalso
    have : cafebabeL.isPrefixOf (c :: tl) = false :=
      occCount_zero_not_isPrefixOf (by decide) hc
    rw [this] at hcafe
    exact Bool.noConfusion hcafe
  | case4 c tl hdead hcafe ih =>
    intro hc
    rw [bogusScan]
    simp only [Bool.not_eq_true] at hdead hcafe
    have hb := hcafe
    have hd := hdead
    simp only [hd, hb, if_false, Bool.false_eq_true]
    have hctl : occCount cafebabeL tl = 0 := by
      rw [occCount_cons, hb] at hc
      simpa using hc
    rw [ih hctl, occCount_cons, hd]
    simp

lemma utf8Char_ascii {c : Char} (h : c.toNat < 0x80) : utf8Char c = [c.toNat] := by
  rw [utf8Char]
  simp [h]

lemma uEsc_no_backslash_ascii : ∀ s : List Char,
    (∀ c ∈ s, c.toNat ≠ 0x5C) → (∀ c ∈ s, c.toNat < 0x80) →
    uEsc (utf8Bytes s) = some s := by
  intro s
  induction s with
  | nil => intro _ _; simp [utf8Bytes, uEsc, uEscA]
  | cons c tl ih =>
    intro h5c h80
    have hc80 : c.toNat < 0x80 := h80 c (List.mem_cons_self c tl)
    have hc5c : c.toNat ≠ 0x5C := h5c c (List.mem_cons_self c tl)
    have hb : utf8Bytes (c :: tl) = c.toNat :: utf8Bytes tl := by
      show utf8Char c ++ utf8Bytes tl = _
      rw [utf8Char_ascii hc80]
      rfl
    rw [uEsc, hb]
    simp only [uEscA]
    rw [if_pos hc5c]
    have ihh := ih (fun x hx => h5c x (List.mem_cons_of_mem c hx))
      (fun x hx => h80 x (List.mem_cons_of_mem c hx))
    rw [uEsc] at ihh
    rw [ihh]
    simp [Char.ofNat_toNat]

section DictLemmas

variable {α : Type}

lemma dict_any_iff_mem (d : List (List Char × α)) (k : List Char) :
    d.any (fun p => decide (p.1 = k)) = true ↔ k ∈ dictKeys d := by
  rw [List.any_eq_true, dictKeys]
  constructor
  · rintro ⟨p, hp, hd⟩
    exact List.mem_map.mpr ⟨p, hp, decide_eq_true_eq.mp hd⟩
  · intro hk
    obtain ⟨p, hp, hpk⟩ := List.mem_map.mp hk
    exact ⟨p, hp, decide_eq_true_eq.mpr hpk⟩

lemma dictKeys_insert (d : List (List Char × α)) (k : List Char) (v : α) :
    dictKeys (dictInsert d k v) =
      if k ∈ dictKeys d then dictKeys d else dictKeys d ++ [k] := by
  rw [dictInsert]
  by_cases h : d.any (fun p => decide (p.1 = k)) = true
  · rw [if_pos h, if_pos ((dict_any_iff_mem d k).mp h)]
    rw [dictKeys, dictKeys, List.map_map]
    apply List.map_congr_left
    intro p _
    by_cases hp : p.1 = k
    · simp [hp]
    · simp [hp]
  · have hmem : k ∉ dictKeys d := fun hk => h ((dict_any_iff_mem d k).mpr hk)
    rw [if_neg h, if_neg hmem, dictKeys, dictKeys, List.map_append]
    rfl

lemma find?_upsert_ne (d : List (List Char × α)) {k k' : List Char} (v : α)
    (hk : k' ≠ k) :
    (d.map (fun p => if p.1 = k then (k, v) else p)).find? (fun p => decide (p.1 = k')) =
      d.find? (fun p => decide (p.1 = k')) := by
  induction d with
  | nil => rfl
  | cons p rest ih =>
    rw [List.map_cons, List.find?_cons, List.find?_cons]
    by_cases hp : p.1 = k
    · rw [if_pos hp]
      have h1 : decide (((k, v) : List Char × α).1 = k') = false :=
        decide_eq_false (fun hc => hk hc.symm)
      have h2 : decide (p.1 = k') = false := by
        apply decide_eq_false
        intro hc
        exact hk (by rw [← hc, hp])
      simp only [h1, h2]
      exact ih
    · rw [if_neg hp]
      cases hq : decide (p.1 = k') with
      | false => simp only [hq]; exact ih
      | true => simp only [hq]

lemma find?_upsert_self (d : List (List Char × α)) {k : List Char} (v : α)
    (h : d.any (fun p => decide (p.1 = k)) = true) :
    (d.map (fun p => if p.1 = k then (k, v) else p)).find? (fun p => decide (p.1 = k)) =
      some (k, v) := by
  induction d with
  | nil => simp at h
  | cons p rest ih =>
    rw [List.map_cons, List.find?_cons]
    by_cases hp : p.1 = k
    · rw [if_pos hp]
      simp
    · rw [if_neg hp]
      have h2 : decide (p.1 = k) = false := decide_eq_false hp
      simp only [h2]
      apply ih
      rw [List.any_cons, h2, Bool.false_or] at h
      exact h

lemma dictLookup_insert_self (d : List (List Char × α)) (k : List Char) (v : α) :
    dictLookup k (dictInsert d k v) = some v := by
  rw [dictInsert]
  by_cases h : d.any (fun p => decide (p.1 = k)) = true
  · rw [if_pos h, dictLookup, find?_upsert_self d v h]
    rfl
  · rw [if_neg h, dictLookup, List.find?_append]
    have hnone : d.find? (fun p => decide (p.1 = k)) = none := by
      rw [List.find?_eq_none]
      intro p hp hcon
      exact h (List.any_eq_true.mpr ⟨p, hp, hcon⟩)
    rw [hnone]
    simp [List.find?]

lemma dictLookup_insert_ne (d : List (List Char × α)) {k k' : List Char} (v : α)
    (hk : k' ≠ k) : dictLookup k' (dictInsert d k v) = dictLookup k' d := by
  rw [dictInsert]
  by_cases h : d.any (fun p => decide (p.1 = k)) = true
  · rw [if_pos h, dictLookup, find?_upsert_ne d v hk]
    rfl
  · rw [if_neg h, dictLookup, List.find?_append]
    have hsingle : ([(k, v)] : List (List Char × α)).find? (fun p => decide (p.1 = k')) = none := by
      have : decide (((k, v) : List Char × α).1 = k') = false :=
        decide_eq_false (fun hc => hk hc.symm)
      simp [List.find?, this]
    rw [hsingle, Option.or_none]
    rfl

/-- `dict` lookup after a left fold of upserts: the value of the last entry
carrying the key, falling back to the initial dictionary. -/
lemma dictLookup_foldl_insert (l : List (List Char × α)) :
    ∀ (d : List (List Char × α)) (k : List Char),
      dictLookup k (l.foldl (fun d p => dictInsert d p.1 p.2) d) =
        match (l.filter (fun p => decide (p.1 = k))).getLast? with
        | some p => some p.2
        | none => dictLookup k d := by
  induction l with
  | nil => intro d k; rfl
  | cons p rest ih =>
    intro d k
    rw [List.foldl_cons, ih]
    by_cases hp : p.1 = k
    · have hdec : decide (p.1 = k) = true := decide_eq_true hp
      rw [List.filter_cons, hdec]
      simp only [if_true]
      rcases hf : rest.filter (fun q => decide (q.1 = k)) with _ | ⟨q, qs⟩
      · rw [hf]
        simp only [List.getLast?_nil, List.getLast?_singleton]
        subst hp
        exact dictLookup_insert_self d p.1 p.2
      · rw [hf, List.getLast?_cons_cons]
        rcases hg : (q :: qs).getLast? with _ | x
        · simp at hg
        · rfl
    · have hdec : decide (p.1 = k) = false := decide_eq_false hp
      rw [List.filter_cons, hdec]
      simp only [Bool.false_eq_true, if_false]
      rcases hg : (rest.filter (fun q => decide (q.1 = k))).getLast? with _ | x
      · rw [hg]
        exact dictLookup_insert_ne d p.2 (fun hc => hp hc.symm)
      · rw [hg]

lemma dictKeys_nodup_insert (d : List (List Char × α)) (k : List Char) (v : α)
    (h : (dictKeys d).Nodup) : (dictKeys (dictInsert d k v)).Nodup := by
  rw [dictKeys_insert]
  by_cases hm : k ∈ dictKeys d
  · rw [if_pos hm]; exact h
  · rw [if_neg hm]
    rw [List.nodup_append]
    exact ⟨h, List.nodup_singleton k, by simp [hm, List.disjoint_singleton]⟩

lemma length_eq_keys_length (d : List (List Char × α)) : d.length = (dictKeys d).length := by
  rw [dictKeys, List.length_map]

/-- The size of the dictionary built by a fold of upserts is the number of
distinct keys inserted, plus the part of the initial dictionary not
overwritten. -/
lemma dictKeys_foldl_toFinset (l : List (List Char × α)) :
    ∀ (d : List (List Char × α)),
      (dictKeys (l.foldl (fun d p => dictInsert d p.1 p.2) d)).toFinset =
        (dictKeys d).toFinset ∪ (l.map (fun p => p.1)).toFinset := by
  induction l with
  | nil => intro d; simp
  | cons p rest ih =>
    intro d
    rw [List.foldl_cons, ih]
    rw [dictKeys_insert]
    by_cases hm : p.1 ∈ dictKeys d
    · rw [if_pos hm]
      ext x
      simp only [Finset.mem_union, List.mem_toFinset, List.map_cons, List.mem_cons]
      constructor
      · tauto
      · rintro (h | rfl | h) <;> tauto
    · rw [if_neg hm]
      ext x
      simp only [List.toFinset_append, Finset.mem_union, List.mem_toFinset,
        List.map_cons, List.mem_cons, List.mem_singleton]
      tauto

lemma dictKeys_foldl_nodup (l : List (List Char × α)) :
    ∀ d : List (List Char × α), (dictKeys d).Nodup →
      (dictKeys (l.foldl (fun d p => dictInsert d p.1 p.2) d)).Nodup := by
  induction l with
  | nil => intro d h; exact h
  | cons p rest ih =>
    intro d h
    rw [List.foldl_cons]
    exact ih _ (dictKeys_nodup_insert d p.1 p.2 h)

end DictLemmas

/-- The converter's `continue`-on-reserved-name loop equals a fold over the
filtered match list. -/
lemma irFunctions_foldl_filter (l : List (List Char × List Char × List Char × List Char)) :
    ∀ d : List (List Char × IrFuncEntry),
      l.foldl (fun d m =>
        if pyStarts "llvm.".data m.2.1 ∨ pyStarts "__".data m.2.1 then d
        else dictInsert d m.2.1 (irBuildEntry m)) d =
      (l.filter (fun m => okName m.2.1)).foldl
        (fun d m => dictInsert d m.2.1 (irBuildEntry m)) d := by
  induction l with
  | nil => intro d; rfl
  | cons m rest ih =>
    intro d
    rw [List.foldl_cons, List.filter_cons]
    by_cases hskip : pyStarts "llvm.".data m.2.1 ∨ pyStarts "__".data m.2.1
    · have hok : okName m.2.1 = false := by
        rw [okName]
        rcases hskip with h | h <;> simp [h]
      rw [if_pos hskip, hok]
      simp only [Bool.false_eq_true, if_false]
      exact ih d
    · have hok : okName m.2.1 = true := by
        rw [okName]
        push_neg at hskip
        simp [hskip.1, hskip.2]
      rw [if_neg hskip, hok]
      simp only [if_true, List.foldl_cons]
      exact ih _

/-- Step invariant: the converter's key list stays the reserved-name
filtering of the report tool's key list. -/
lemma keys_fold_rel (l : List (List Char × List Char × List Char × List Char)) :
    ∀ (d1 : List (List Char × FunctionInfo)) (d2 : List (List Char × IrFuncEntry)),
      dictKeys d2 = (dictKeys d1).filter okName →
      dictKeys (l.foldl (fun d m =>
          if pyStarts "llvm.".data m.2.1 ∨ pyStarts "__".data m.2.1 then d
          else dictInsert d m.2.1 (irBuildEntry m)) d2) =
        (dictKeys (l.foldl (fun d m => dictInsert d m.2.1 (decBuildInfo m)) d1)).filter
          okName := by
  induction l with
  | nil => intro d1 d2 h; exact h
  | cons m rest ih =>
    intro d1 d2 hrel
    rw [List.foldl_cons, List.foldl_cons]
    apply ih
    by_cases hskip : pyStarts "llvm.".data m.2.1 ∨ pyStarts "__".data m.2.1
    · have hok : okName m.2.1 = false := by
        rw [okName]
        rcases hskip with h | h <;> simp [h]
      rw [if_pos hskip, dictKeys_insert]
      by_cases hm : m.2.1 ∈ dictKeys d1
      · rw [if_pos hm]; exact hrel
      · rw [if_neg hm, List.filter_append, hrel]
        simp [hok]
    · have hok : okName m.2.1 = true := by
        rw [okName]
        push_neg at hskip
        simp [hskip.1, hskip.2]
      rw [if_neg hskip, dictKeys_insert, dictKeys_insert]
      have hmem_iff : m.2.1 ∈ dictKeys d2 ↔ m.2.1 ∈ dictKeys d1 := by
        rw [hrel, List.mem_filter]
        exact ⟨fun h => h.1, fun h => ⟨h, hok⟩⟩
      by_cases hm : m.2.1 ∈ dictKeys d1
      · rw [if_pos hm, if_pos (hmem_iff.mpr hm)]; exact hrel
      · rw [if_neg hm, if_neg (fun hc => hm (hmem_iff.mp hc)), List.filter_append, hrel]
        simp [hok]

lemma decFunctions_as_pairs (text : List Char) :
    decFunctions text =
      ((findDefines text).map (fun m => (m.2.1, decBuildInfo m))).foldl
        (fun d p => dictInsert d p.1 p.2) [] := by
  rw [decFunctions, List.foldl_map]

lemma irFunctions_as_pairs (text : List Char) :
    irFunctions text =
      (((findDefines text).filter (fun m => okName m.2.1)).map
          (fun m => (m.2.1, irBuildEntry m))).foldl
        (fun d p => dictInsert d p.1 p.2) [] := by
  rw [irFunctions, irFunctions_foldl_filter, List.foldl_map]

lemma decFunctions_lookup (text : List Char) (k : List Char) :
    dictLookup k (decFunctions text) =
      (((findDefines text).filter (fun m => decide (m.2.1 = k))).getLast?).map decBuildInfo := by
  rw [decFunctions_as_pairs, dictLookup_foldl_insert]
  have hfm : ((findDefines text).map (fun m => (m.2.1, decBuildInfo m))).filter
      (fun p => decide (p.1 = k)) =
      ((findDefines text).filter (fun m => decide (m.2.1 = k))).map
        (fun m => (m.2.1, decBuildInfo m)) := by
    rw [List.filter_map]
    rfl
  rw [hfm, List.getLast?_map]
  cases ((findDefines text).filter (fun m => decide (m.2.1 = k))).getLast? with
  | none => rfl
  | some m => rfl

lemma irFunctions_lookup (text : List Char) (k : List Char) :
    dictLookup k (irFunctions text) =
      ((((findDefines text).filter (fun m => okName m.2.1)).filter
          (fun m => decide (m.2.1 = k))).getLast?).map irBuildEntry := by
  rw [irFunctions_as_pairs, dictLookup_foldl_insert]
  have hfm : (((findDefines text).filter (fun m => okName m.2.1)).map
        (fun m => (m.2.1, irBuildEntry m))).filter (fun p => decide (p.1 = k)) =
      (((findDefines text).filter (fun m => okName m.2.1)).filter
        (fun m => decide (m.2.1 = k))).map (fun m => (m.2.1, irBuildEntry m)) := by
    rw [List.filter_map]
    rfl
  rw [hfm, List.getLast?_map]
  cases (((findDefines text).filter (fun m => okName m.2.1)).filter
      (fun m => decide (m.2.1 = k))).getLast? with
  | none => rfl
  | some m => rfl

lemma totalFunctions_dedup (text : List Char) :
    totalFunctions text = ((findDefines text).map (fun m => m.2.1)).dedup.length := by
  rw [totalFunctions, decFunctions_as_pairs, length_eq_keys_length]
  have hnod : (dictKeys (((findDefines text).map (fun m => (m.2.1, decBuildInfo m))).foldl
      (fun d p => dictInsert d p.1 p.2) [])).Nodup :=
    dictKeys_foldl_nodup _ [] List.nodup_nil
  rw [← List.toFinset_card_of_nodup hnod, dictKeys_foldl_toFinset]
  have h0 : dictKeys ([] : List (List Char × FunctionInfo)) = [] := rfl
  rw [h0]
  simp only [List.toFinset_nil, Finset.empty_union, List.map_map]
  rw [List.card_toFinset]
  rfl

lemma isEmpty_false_of_ne_nil {l : List Char} (h : l ≠ []) : l.isEmpty = false := by
  cases l with
  | nil => exact absurd rfl h
  | cons c tl => rfl

/-- `re.search(r'ret\s+(.+)', 'ret ' + v)` captures exactly `v` when `v` is a
nonempty whitespace-free token. -/
lemma searchRet_token {v : List Char} (hne : v ≠ []) (hnw : ∀ c ∈ v, ¬ pySpace c) :
    searchRet ('r' :: 'e' :: 't' :: ' ' :: v) = some v := by
  rcases v with _ | ⟨a, rest⟩
  · exact absurd rfl hne
  · have htwS : List.takeWhile pySpace (' ' :: a :: rest) = [' '] := by
      rw [List.takeWhile_cons]
      simp only [show pySpace ' ' = true from rfl, if_true]
      rw [takeWhile_nil_of_not hnw]
    have hdwS : List.dropWhile pySpace (' ' :: a :: rest) = a :: rest := by
      rw [List.dropWhile_cons]
      simp only [show pySpace ' ' = true from rfl, if_true]
      exact dropWhile_self_of_not hnw
    have htw2 : List.takeWhile (fun x => x ≠ '\n') (a :: rest) = a :: rest := by
      apply takeWhile_self_of_all
      intro y hy
      have hyw := hnw y hy
      simp only [decide_eq_true_eq]
      intro hcon
      rw [hcon] at hyw
      exact hyw rfl
    have hm : matchRetAt ('r' :: 'e' :: 't' :: ' ' :: a :: rest) = some (a :: rest) := by
      simp only [matchRetAt]
      rw [if_pos (show pyStarts "ret".data ('r' :: 'e' :: 't' :: ' ' :: a :: rest) = true from rfl)]
      have hd3 : List.drop 3 ('r' :: 'e' :: 't' :: ' ' :: a :: rest) = ' ' :: a :: rest := rfl
      rw [hd3, htwS, hdwS]
      simp only [List.isEmpty_cons, Bool.false_eq_true, if_false]
      rw [htw2]
    rw [searchRet, hm]

/-! ## Claim theorems -/

/-- C1 counterexample: a well-formed body with two instruction lines and no
labels gets `complexityScore = 1`, not `2`: the `[^;]` class matches newlines,
so both lines merge into one extracted "instruction"; and a block-label line
is counted in `basicBlockCount` yet still included inside the instruction
chunk rather than excluded. -/
theorem c1_complexity_cex :
    complexityOf "  ret i32 0\n  ret i32 1".data = 1 ∧
    complexityOf "  ret i32 0\n  ret i32 1".data ≠ 2 ∧
    extractedInstructions "  ret i32 0\n  ret i32 1".data = ["ret i32 0\n  ret i32 1".data] ∧
    extractedInstructions "2:\n  br label %x".data = ["2:\n  br label %x".data] ∧
    countLabels "2:\n  br label %x".data = 1 := by
  refine ⟨by decide, by decide, by decide, by decide, by decide⟩

/-- C1 (amended): for a well-formed body containing no comment character `;`
and at least one non-blank character, the whole body (label lines included)
is extracted as one single instruction chunk, and
`complexityScore = 1 + 2 * basicBlockCount`. -/
theorem c1_complexity_amended (body : List Char) (hsemi : ∀ c ∈ body, c ≠ ';')
    (hnb : ∃ x ∈ body, ¬ pySpace x) :
    extractedInstructions body = [pyStrip body] ∧
    complexityOf body = 1 + countLabels body * 2 := by
  obtain ⟨x, hx, hxw⟩ := hnb
  have h1 := extractedInstructions_single hsemi hx hxw
  refine ⟨h1, ?_⟩
  rw [complexityOf, h1]
  rfl

/-- Witness for C1 (amended) at a concrete body with one block label. -/
theorem c1_complexity_amended_witness :
    extractedInstructions "2:\n  ret void".data = [pyStrip "2:\n  ret void".data] ∧
    complexityOf "2:\n  ret void".data = 1 + countLabels "2:\n  ret void".data * 2 :=
  c1_complexity_amended "2:\n  ret void".data (by decide) (by decide)

/-- C2 counterexample: the two lowering engines disagree on the instruction
`ret undef` (the converter checks for the undefined-value token, the report
tool does not), so the tools do not run the same lowering pipeline. -/
theorem c2_lowering_differs_cex :
    decConvert "ret undef".data = some "return undef;".data ∧
    irConvert "ret undef".data = some "return;".data ∧
    decConvert "ret undef".data ≠ irConvert "ret undef".data := by
  refine ⟨by decide, by decide, by decide⟩

set_option maxRecDepth 8000 in
/-- C3 counterexample: a body lowering to 31 output lines is silently cut to
30 by the standalone converter — no trailing summary comment states the
omitted count. -/
theorem c3_truncation_cex :
    irDecompileBodyAll (String.join (List.replicate 31 "  ret 0\n")).data =
      List.replicate 31 "return 0;".data ∧
    irDecompileBody (String.join (List.replicate 31 "  ret 0\n")).data =
      List.replicate 30 "return 0;".data := by
  refine ⟨by decide, by decide⟩

/-- C3 (amended): the report tool caps the lowered output at the first 20
*input* instructions and, when more than 20 exist, emits one summary comment
counting the omitted instructions just before the closing brace; the
standalone converter instead keeps only the first 30 produced output lines
and truncates silently, with no summary comment. -/
theorem c3_truncation_amended (fi : FunctionInfo) (body : List Char)
    (h : 20 < fi.instructions.length) :
    (∃ pre, decompileFunctionLines fi =
        pre ++ ["    // ... ".data ++ (Nat.repr (fi.instructions.length - 20)).data
            ++ " more instructions ...".data, "\x7d".data] ∧
        pre.length ≤ 21) ∧
    irDecompileBody body = (irDecompileBodyAll body).take 30 ∧
    (irDecompileBody body).length ≤ 30 := by
  refine ⟨?_, rfl, List.length_take_le 30 (irDecompileBodyAll body)⟩
  refine ⟨[convertTypeDec fi.returnType ++ [' '] ++ fi.name ++ ['('] ++ decParamStr fi.params
      ++ ") \x7b".data] ++ ((fi.instructions.take 20).filterMap decConvert).map
        (fun c => "    ".data ++ c), ?_, ?_⟩
  · rw [decompileFunctionLines, if_pos h]
    simp [List.append_assoc]
  · simp only [List.length_append, List.length_cons, List.length_nil, List.length_map]
    have h1 := List.length_filterMap_le decConvert (fi.instructions.take 20)
    have h2 := List.length_take_le 20 fi.instructions
    omega

/-- Witness for C3 (amended) at a 21-instruction function. -/
theorem c3_truncation_amended_witness :
    (∃ pre, decompileFunctionLines
        { name := "f".data, params := [], returnType := "i32".data,
          instructions := List.replicate 21 "ret 0".data, basicBlocks := 0,
          complexity := 21 } =
        pre ++ ["    // ... ".data
            ++ (Nat.repr ((List.replicate 21 "ret 0".data).length - 20)).data
            ++ " more instructions ...".data, "\x7d".data] ∧
        pre.length ≤ 21) ∧
    irDecompileBody "ret 0".data = (irDecompileBodyAll "ret 0".data).take 30 ∧
    (irDecompileBody "ret 0".data).length ≤ 30 :=
  c3_truncation_amended
    { name := "f".data, params := [], returnType := "i32".data,
      instructions := List.replicate 21 "ret 0".data, basicBlocks := 0, complexity := 21 }
    "ret 0".data (by decide)

/-- C4 counterexample: an absent return operand is elided by both tools
(no bare return is emitted), and the report tool lowers `ret undef` to an
operand-carrying return, not a bare one. -/
theorem c4_return_lowering_cex :
    decConvert "ret".data = none ∧
    irConvert "ret".data = none ∧
    decConvert "ret undef".data = some "return undef;".data := by
  refine ⟨by decide, by decide, by decide⟩

/-- C4 (amended): for a present, whitespace-free, nonempty return operand
(that introduces no `call` text and no temporary-assignment `%` character):
the report tool emits a bare return exactly when the operand is the literal
`void` token and otherwise echoes the raw operand; the converter emits a bare
return when the operand contains `void` or equals the undefined-value token
`undef`, and otherwise echoes the simplified operand.  An absent operand is
elided by both tools (see the counterexample theorem). -/
theorem c4_return_lowering_amended (v : List Char)
    (hne : v ≠ []) (hnw : ∀ c ∈ v, ¬ pySpace c) (hpc : ∀ c ∈ v, c ≠ '%')
    (hnc : pyIn "call".data ("ret ".data ++ v) = false) :
    decConvert ("ret ".data ++ v) =
      (if v = "void".data then some "return;".data
       else some ("return ".data ++ v ++ [';'])) ∧
    irConvert ("ret ".data ++ v) =
      (if pyIn "void".data v = true ∨ v = "undef".data then some "return;".data
       else some ("return ".data ++ simplifyValue v ++ [';'])) := by
  have hform : "ret ".data ++ v = 'r' :: 'e' :: 't' :: ' ' :: v := rfl
  rw [hform] at hnc ⊢
  have hp : ∀ x ∈ 'r' :: 'e' :: 't' :: ' ' :: v, x ≠ '%' := by
    intro x hx
    simp only [List.mem_cons] at hx
    rcases hx with rfl | rfl | rfl | rfl | hx
    · decide
    · decide
    · decide
    · decide
    · exact hpc x hx
  have hsa : stripAssign ('r' :: 'e' :: 't' :: ' ' :: v) = 'r' :: 'e' :: 't' :: ' ' :: v :=
    stripAssign_id hp
  have hret : pyIn "ret".data ('r' :: 'e' :: 't' :: ' ' :: v) = true :=
    pyIn_of_isPrefixOf rfl
  have hsr := searchRet_token hne hnw
  have hstrip : pyStrip v = v := pyStrip_id hnw
  have hemp : v.isEmpty = false := isEmpty_false_of_ne_nil hne
  constructor
  · simp only [decConvert, hsa, hnc, Bool.false_eq_true, if_false, hret, if_true, hsr, hstrip,
      hemp]
    by_cases hv : v = "void".data
    · simp [hv]
    · simp [hv]
  · simp only [irConvert, hsa, hret, if_true, hsr, hstrip, hemp]
    by_cases h1 : pyIn "void".data v = true
    · simp [h1]
    · by_cases h2 : v = "undef".data
      · simp [h1, h2]
      · simp [h1, h2]

/-- Witness for C4 (amended) at the operands `42` and `void`. -/
theorem c4_return_lowering_amended_witness :
    (decConvert ("ret ".data ++ "42".data) =
      (if "42".data = "void".data then some "return;".data
       else some ("return ".data ++ "42".data ++ [';'])) ∧
     irConvert ("ret ".data ++ "42".data) =
      (if pyIn "void".data "42".data = true ∨ "42".data = "undef".data then some "return;".data
       else some ("return ".data ++ simplifyValue "42".data ++ [';']))) ∧
    decConvert ("ret ".data ++ "void".data) =
      (if "void".data = "void".data then some "return;".data
       else some ("return ".data ++ "void".data ++ [';'])) :=
  ⟨c4_return_lowering_amended "42".data (by decide) (by decide) (by decide) (by decide),
   (c4_return_lowering_amended "void".data (by decide) (by decide) (by decide) (by decide)).1⟩

/-- C2 (amended): both tools recognise function headers with the same
pattern and brace scan, so the converter's function collection is exactly the
report tool's collection restricted to names that pass the reserved-name skip
rule; the per-instruction lowering engines, however, differ (see the
counterexample theorem). -/
theorem c2_pipeline_amended (text : List Char) :
    dictKeys (irFunctions text) = (dictKeys (decFunctions text)).filter okName :=
  keys_fold_rel (findDefines text) [] [] rfl

/-- C5 counterexample: a listing defining only `@__obf_helper` gives the
report tool a function collection containing it — `totalFunctions = 1` and
`totalInstructions = 1`, not 0 — while only the standalone converter skips
it. -/
theorem c5_skip_rule_cex :
    totalFunctions
        "define i32 @__obf_helper(i32 %x) \x7b\n  ret i32 %x\n\x7d\n".data = 1 ∧
    dictLookup "__obf_helper".data
        (decFunctions
          "define i32 @__obf_helper(i32 %x) \x7b\n  ret i32 %x\n\x7d\n".data) ≠ none ∧
    totalInstructions
        "define i32 @__obf_helper(i32 %x) \x7b\n  ret i32 %x\n\x7d\n".data = 1 ∧
    irFunctions
        "define i32 @__obf_helper(i32 %x) \x7b\n  ret i32 %x\n\x7d\n".data = [] := by
  refine ⟨by decide, by decide, by decide, by decide⟩

/-- C5 (amended): the reserved-name skip rule lives only in the standalone
converter: its function collection never carries a name with the
internal-use prefix `__` or the intrinsic namespace prefix `llvm.` (the
report tool's collection and metrics include such functions — see the
counterexample theorem). -/
theorem c5_skip_rule_amended (text k : List Char)
    (hk : k ∈ dictKeys (irFunctions text)) :
    pyStarts "__".data k = false ∧ pyStarts "llvm.".data k = false := by
  have h2 : dictKeys (irFunctions text) = (dictKeys (decFunctions text)).filter okName :=
    keys_fold_rel (findDefines text) [] [] rfl
  rw [h2] at hk
  have hok := (List.mem_filter.mp hk).2
  rw [okName] at hok
  simp only [Bool.not_eq_true', Bool.or_eq_false_iff] at hok
  exact ⟨hok.2, hok.1⟩

/-- Witness for C5 (amended): `foo` survives the converter's skip rule in a
listing that also defines `@__bar`. -/
theorem c5_skip_rule_amended_witness :
    pyStarts "__".data "foo".data = false ∧ pyStarts "llvm.".data "foo".data = false :=
  c5_skip_rule_amended
    "define i32 @foo() \x7b\n  ret i32 0\n\x7d\ndefine i32 @__bar() \x7b\n  ret i32 1\n\x7d\n".data
    "foo".data (by decide)

/-- C10: for both tools the function collection is a dict keyed by name:
looking up a name returns the record built from the last definition with
that name in text order, and `totalFunctions` counts distinct names only. -/
theorem c10_duplicate_overwrite (text k : List Char) :
    dictLookup k (decFunctions text) =
      (((findDefines text).filter (fun m => decide (m.2.1 = k))).getLast?).map decBuildInfo ∧
    dictLookup k (irFunctions text) =
      ((((findDefines text).filter (fun m => okName m.2.1)).filter
          (fun m => decide (m.2.1 = k))).getLast?).map irBuildEntry ∧
    totalFunctions text = ((findDefines text).map (fun m => m.2.1)).dedup.length :=
  ⟨decFunctions_lookup text k, irFunctions_lookup text k, totalFunctions_dedup text⟩

/-- C6: a listing whose text contains the literal sentinel `0xDEADBEEF`
exactly twice and `0xCAFEBABE` not at all yields a `BOGUS_CODE` marker count
of exactly 2, and a listing containing neither sentinel yields 0, with no
error for absence (the `.get('bogus_code', 0)` default). -/
theorem c6_bogus_marker_counts (t : List Char) :
    (occCount deadbeefL t = 2 → occCount cafebabeL t = 0 → bogusCodeBlocks t = 2) ∧
    (occCount deadbeefL t = 0 → occCount cafebabeL t = 0 → bogusCodeBlocks t = 0) := by
  constructor
  · intro h2 h0
    have hs := bogusScan_eq_occCount t h0
    rw [bogusCodeBlocks, hs, h2]
    simp
  · intro h2 h0
    have hs := bogusScan_eq_occCount t h0
    rw [bogusCodeBlocks, hs, h2]
    simp

/-- Witness for C6 at concrete listings. -/
theorem c6_bogus_marker_counts_witness :
    bogusCodeBlocks "x 0xDEADBEEF y 0xDEADBEEF z".data = 2 ∧
    bogusCodeBlocks "ret i32 0".data = 0 :=
  ⟨(c6_bogus_marker_counts _).1 (by decide) (by decide),
   (c6_bogus_marker_counts _).2 (by decide) (by decide)⟩

/-- C7 counterexample: the escape-free payload `café` does not decode to
itself — `codecs.decode` on a `str` goes through UTF-8 bytes, which the
`unicode_escape` decoder reads back as Latin-1, yielding `cafÃ©`. -/
theorem c7_decode_not_identity_cex :
    (∀ c ∈ "café".data, c ≠ '\\') ∧
    decodeString "café".data = "cafÃ©".data ∧
    decodeString "café".data ≠ "café".data := by
  refine ⟨by decide, by decide, by decide⟩

/-- C7 (amended): for every escape-free payload consisting of ASCII
characters (code point below 128, and none equal to the backslash, code
point 92), the escape-decoding step returns the payload unchanged. -/
theorem c7_decode_identity_on_ascii (s : List Char)
    (h5c : ∀ c ∈ s, c.toNat ≠ 0x5C) (h80 : ∀ c ∈ s, c.toNat < 0x80) :
    decodeString s = s := by
  rw [decodeString, uEsc_no_backslash_ascii s h5c h80]

/-- Witness for C7 (amended) at a concrete ASCII payload. -/
theorem c7_decode_identity_on_ascii_witness :
    decodeString "Hello, IR!".data = "Hello, IR!".data :=
  c7_decode_identity_on_ascii "Hello, IR!".data (by decide) (by decide)

/-- C8: decoding never surfaces an error: when the escape decode fails the
constant keeps the raw payload unchanged, and the string-constant list is
still produced for the whole listing (one entry per nonempty payload). -/
theorem c8_decode_failure_keeps_raw (s content : List Char)
    (h : uEsc (utf8Bytes s) = none) :
    decodeString s = s ∧
    (parserStrings content).length =
      ((extractCStrings content).filter (fun p => !p.isEmpty)).length := by
  constructor
  · rw [decodeString, h]
  · rw [parserStrings, List.length_map]

/-- Witness for C8: a truncated `\x` escape fails to decode and the payload
is kept raw; the other constants of the listing are still extracted. -/
theorem c8_decode_failure_keeps_raw_witness :
    decodeString "a\\x".data = "a\\x".data ∧
    (parserStrings "c\"hi\" c\"a\\x\"".data).length = 2 :=
  ⟨(c8_decode_failure_keeps_raw "a\\x".data "c\"hi\" c\"a\\x\"".data (by decide)).1,
   by
    have := (c8_decode_failure_keeps_raw "a\\x".data "c\"hi\" c\"a\\x\"".data (by decide)).2
    rw [this]
    decide⟩

/-- C9: the function-body brace-depth scan always stops, and it stops either
because it consumed the whole remaining text or because the depth returned to
zero; while the depth is positive every step strictly advances the position. -/
theorem c9_brace_scan_terminates (t : List Char) (d : Nat) :
    (braceScan t d).1 ≤ t.length ∧
    ((braceScan t d).1 = t.length ∨ (braceScan t d).2 = 0) ∧
    (0 < d → t ≠ [] → 0 < (braceScan t d).1) := by
  induction t generalizing d with
  | nil => simp [braceScan]
  | cons c tl ih =>
    by_cases hd : d = 0
    · simp [braceScan, hd]
    · have h2 := ih (braceStep c d)
      simp only [braceScan, if_neg hd, List.length_cons]
      refine ⟨by omega, ?_, fun _ _ => by omega⟩
      rcases h2.2.1 with h | h
      · exact Or.inl (by omega)
      · exact Or.inr h

/-- Witness for C9 at a concrete malformed input (an unbalanced body). -/
theorem c9_brace_scan_terminates_witness :
    0 < (braceScan "ret \x7b x".data 1).1 ∧
    ((braceScan "ret \x7b x".data 1).1 = 7 ∨ (braceScan "ret \x7b x".data 1).2 = 0) :=
  ⟨(c9_brace_scan_terminates "ret \x7b x".data 1).2.2 (by decide) (by decide),
   (c9_brace_scan_terminates "ret \x7b x".data 1).2.1⟩

end Spec2Proof
